import Mathlib

/-!
Verification of the bulk-data acquisition and conversion pipeline of the
`mot-data-wrangling` repository, against its natural-language specification.

The development shallowly embeds the two components the specification covers:

* the resumable downloader, `_download_file` in
  `src/mot_data/dvsa_mot_history_api/api_client.py`, and its older sibling
  `download_file` in `src/mot_history/cli.py`;
* the batch archive converter, `convert_zip_to_parquet` in
  `src/mot_data/dvsa_mot_history_api/zip_to_parquet.py`.

Network and filesystem effects are made explicit: the downloader is a pure
function of the destination state and a server oracle, returning the outcome
together with the list of HTTP requests issued (each request recorded by its
optional `Range` header start); the converter is a pure function of the
archive's member list, per-batch success oracles and the initial filesystem
state at the output path, returning the outcome together with the final
filesystem state.
-/

/-! ## Downloader: state and server model -/

/-- The observable state of the destination path before/after a download.
`dest_exists` models `destination.exists()`, `is_file` models
`destination.is_file()`, and `bytes` is the file content, so that
`bytes.length` models `destination.stat().st_size`. -/
structure Dest where
  dest_exists : Bool
  is_file : Bool
  bytes : List Nat
deriving DecidableEq, Repr

/-- A server response: `ok` models `raise_for_status()` succeeding, and
`body` is the streamed response content (chunking does not change which bytes
are appended, so the body is a single byte list). -/
structure HttpResponse where
  ok : Bool
  body : List Nat
deriving DecidableEq, Repr

/-- A server oracle: maps the request's optional `Range` start offset
(`none` = no `Range` header) to the response. -/
def Server : Type := Option Nat → HttpResponse

/-- Errors a download can surface: a non-success HTTP status
(`raise_for_status`), or opening a non-regular existing destination for
append (`destination.open("ab")` on e.g. a directory). -/
inductive DownloadError where
  | httpError : DownloadError
  | notAFile : DownloadError
deriving DecidableEq, Repr

/-- The `headers`/`initial_size` computation of `_download_file`
(api_client.py): a `Range` header starting at the on-disk size is sent
exactly when the destination exists and `expected_size` is known. -/
def apiRange (d : Dest) (expected_size : Option Nat) : Option Nat :=
  if d.dest_exists && expected_size.isSome then some d.bytes.length else none

/-- The `headers`/`initial_size` computation of `download_file` (cli.py): a
`Range` header starting at the on-disk size is sent whenever the destination
exists, whether or not `expected_size` is known. -/
def cliRange (d : Dest) : Option Nat :=
  if d.dest_exists then some d.bytes.length else none

/-- Embedding of `_download_file` from
`src/mot_data/dvsa_mot_history_api/api_client.py`.

Returns the outcome together with the list of requests issued, each recorded
by its `Range` start (`none` when no `Range` header was sent).  The
`destination.parent.mkdir(...)` call only touches parent directories, never
the destination file itself, and is not modelled.  Mirrors the source:

* skip when the destination exists, is a regular file, and the expected size
  is unknown or equals the on-disk size — no request, state unchanged;
* otherwise send one request, with a `Range` header per `apiRange`;
* on a success status, open for append: contents become the old bytes (empty
  when the destination did not exist) followed by the response body; opening
  an existing non-regular destination for append fails. -/
def download_file (server : Server) (d : Dest) (expected_size : Option Nat) :
    Except DownloadError Dest × List (Option Nat) :=
  if d.dest_exists && d.is_file && (expected_size.isNone || expected_size == some d.bytes.length) then
    (Except.ok d, [])
  else
    if (server (apiRange d expected_size)).ok then
      if d.dest_exists && !d.is_file then
        (Except.error DownloadError.notAFile, [apiRange d expected_size])
      else
        (Except.ok
            ⟨true, true,
              (if d.dest_exists then d.bytes else []) ++ (server (apiRange d expected_size)).body⟩,
          [apiRange d expected_size])
    else
      (Except.error DownloadError.httpError, [apiRange d expected_size])

/-- Embedding of `download_file` from `src/mot_history/cli.py`.  Identical to
`download_file` above except for the resume condition: this version sends a
`Range` header whenever the destination exists (`cliRange`), even when
`expected_size` is unknown. -/
def cli_download_file (server : Server) (d : Dest) (expected_size : Option Nat) :
    Except DownloadError Dest × List (Option Nat) :=
  if d.dest_exists && d.is_file && (expected_size.isNone || expected_size == some d.bytes.length) then
    (Except.ok d, [])
  else
    if (server (cliRange d)).ok then
      if d.dest_exists && !d.is_file then
        (Except.error DownloadError.notAFile, [cliRange d])
      else
        (Except.ok
            ⟨true, true, (if d.dest_exists then d.bytes else []) ++ (server (cliRange d)).body⟩,
          [cliRange d])
    else
      (Except.error DownloadError.httpError, [cliRange d])

/-- The three-way fetch decision of the specification's §9 note. -/
inductive FetchDecision where
  | Skip : FetchDecision
  | ResumeFrom : Nat → FetchDecision
  | FreshFetch : FetchDecision
deriving DecidableEq, Repr

/-- The decision taken by `_download_file` (api_client.py), extracted from its
branch structure, as a function of destination existence, regular-file
status, on-disk size and expected size. -/
def fetchDecision (e f : Bool) (k : Nat) (x : Option Nat) : FetchDecision :=
  if e && f && (x.isNone || x == some k) then FetchDecision.Skip
  else if e && x.isSome then FetchDecision.ResumeFrom k
  else FetchDecision.FreshFetch

/-- The decision taken by `download_file` (cli.py), extracted from its branch
structure. -/
def cliFetchDecision (e f : Bool) (k : Nat) (x : Option Nat) : FetchDecision :=
  if e && f && (x.isNone || x == some k) then FetchDecision.Skip
  else if e then FetchDecision.ResumeFrom k
  else FetchDecision.FreshFetch

/-- The `Range` header implied by a fetch decision: `ResumeFrom k` sends
`Range: bytes=k-`, the others send no `Range` header. -/
def rangeHeader : FetchDecision → Option Nat
  | FetchDecision.ResumeFrom k => some k
  | _ => none

/-- A constant server used to evaluate the downloaders at concrete inputs:
always succeeds with an empty body. -/
def constServer : Server := fun _ => ⟨true, []⟩

/-! ### Downloader helper lemmas -/

theorem download_file_skip (server : Server) (d : Dest) (x : Option Nat)
    (h : (d.dest_exists && d.is_file && (x.isNone || x == some d.bytes.length)) = true) :
    download_file server d x = (Except.ok d, []) := by
  unfold download_file
  rw [if_pos h]

theorem download_file_requests (server : Server) (d : Dest) (x : Option Nat)
    (h : (d.dest_exists && d.is_file && (x.isNone || x == some d.bytes.length)) = false) :
    (download_file server d x).2 = [apiRange d x] := by
  unfold download_file
  rw [if_neg (by simp [h])]
  split
  · split <;> rfl
  · rfl

theorem cli_download_file_skip (server : Server) (d : Dest) (x : Option Nat)
    (h : (d.dest_exists && d.is_file && (x.isNone || x == some d.bytes.length)) = true) :
    cli_download_file server d x = (Except.ok d, []) := by
  unfold cli_download_file
  rw [if_pos h]

theorem cli_download_file_requests (server : Server) (d : Dest) (x : Option Nat)
    (h : (d.dest_exists && d.is_file && (x.isNone || x == some d.bytes.length)) = false) :
    (cli_download_file server d x).2 = [cliRange d] := by
  unfold cli_download_file
  rw [if_neg (by simp [h])]
  split
  · split <;> rfl
  · rfl

/-! ### Downloader claims -/

/-- C2: for every destination that exists as a regular file whose on-disk size
equals the supplied `expected_size` (or for which `expected_size` is not
supplied), `_download_file` returns the destination immediately, performs zero
network requests, and leaves the file's content unchanged — re-invoking it on
an already-complete file is idempotent. -/
theorem download_skip_idempotent (server : Server) (d : Dest) (x : Option Nat)
    (he : d.dest_exists = true) (hf : d.is_file = true)
    (hx : x = none ∨ x = some d.bytes.length) :
    download_file server d x = (Except.ok d, []) := by
  apply download_file_skip
  rcases hx with h | h <;> simp [he, hf, h]

theorem download_skip_idempotent_witness :
    download_file constServer ⟨true, true, [3, 1, 4]⟩ (some 3) =
      (Except.ok ⟨true, true, [3, 1, 4]⟩, []) :=
  download_skip_idempotent constServer ⟨true, true, [3, 1, 4]⟩ (some 3) rfl rfl
    (Or.inr (by decide))

/-- C9: for every successful `_download_file` invocation with `expected_size`
supplied — including a resume that starts from a partial file of size
`k ≤ expected_size` with a range request for the remaining bytes — the
destination file exists on return and its on-disk byte length equals
`expected_size` exactly, under the assumption that the server responds with a
success status and sends exactly the requested remaining bytes. -/
theorem download_final_size (server : Server) (d : Dest) (n : Nat)
    (hok : ∀ r, (server r).ok = true)
    (hrange : ∀ k, ((server (some k)).body).length = n - k)
    (hfull : ((server none).body).length = n)
    (hk : d.dest_exists = true → d.bytes.length ≤ n)
    (final : Dest) (h : (download_file server d (some n)).1 = Except.ok final) :
    final.dest_exists = true ∧ final.bytes.length = n := by
  unfold download_file at h
  by_cases hskip :
      (d.dest_exists && d.is_file && ((some n).isNone || some n == some d.bytes.length)) = true
  · rw [if_pos hskip] at h
    simp only [Option.isNone_some, Bool.false_or, Bool.and_eq_true, beq_iff_eq,
      Option.some.injEq] at hskip
    simp only at h
    cases h
    exact ⟨hskip.1.1, hskip.2.symm⟩
  · rw [if_neg hskip] at h
    rw [if_pos (hok _)] at h
    by_cases hnf : (d.dest_exists && !d.is_file) = true
    · rw [if_pos hnf] at h
      cases h
    · rw [if_neg hnf] at h
      simp only [Except.ok.injEq] at h
      subst h
      refine ⟨rfl, ?_⟩
      simp only [List.length_append]
      by_cases he : d.dest_exists = true
      · have hr : apiRange d (some n) = some d.bytes.length := by
          simp [apiRange, he]
        rw [hr, if_pos he, hrange]
        have := hk he
        omega
      · have he' : d.dest_exists = false := by
          cases hde : d.dest_exists
          · rfl
          · exact absurd hde he
        have hr : apiRange d (some n) = none := by
          simp [apiRange, he']
        rw [hr, if_neg he, hfull]
        simp

/-- A server sending exactly the remaining bytes towards a total of 4:
responds to a range request starting at `k` with `4 - k` bytes, and to a full
request with all 4 bytes. -/
def server4 : Server := fun r => ⟨true, List.replicate (4 - r.getD 0) 1⟩

theorem download_final_size_witness :
    (Dest.mk true true [9, 9, 1, 1]).dest_exists = true ∧
      (Dest.mk true true [9, 9, 1, 1]).bytes.length = 4 :=
  download_final_size server4 ⟨true, true, [9, 9]⟩ 4 (fun _ => rfl)
    (fun k => by simp [server4]) (by simp [server4]) (fun _ => by decide)
    ⟨true, true, [9, 9, 1, 1]⟩ rfl

/-- C3 counterexample: two destination states agreeing on existence (`true`),
on-disk size (5) and expected size (`none`) — differing only in regular-file
status — make `_download_file` behave differently: the regular file is
skipped with no request, the non-regular destination triggers a fresh
request.  The fetch decision is therefore not a pure function of
(existence, on-disk size, expected size) alone, as the claim states; the
regular-file status is a fourth input. -/
theorem download_decision_not_triple_function :
    (Dest.mk true true [7, 7, 7, 7, 7]).dest_exists = (Dest.mk true false [7, 7, 7, 7, 7]).dest_exists ∧
    (Dest.mk true true [7, 7, 7, 7, 7]).bytes.length = (Dest.mk true false [7, 7, 7, 7, 7]).bytes.length ∧
    (download_file constServer ⟨true, true, [7, 7, 7, 7, 7]⟩ none).2 = [] ∧
    (download_file constServer ⟨true, false, [7, 7, 7, 7, 7]⟩ none).2 = [none] ∧
    fetchDecision true true 5 none = FetchDecision.Skip ∧
    fetchDecision true false 5 none = FetchDecision.FreshFetch ∧
    FetchDecision.Skip ≠ FetchDecision.FreshFetch :=
  ⟨rfl, rfl, rfl, rfl, rfl, rfl, by decide⟩

/-- C3 (amended): the fetch decision of `_download_file` is a pure function
`fetchDecision` of (destination existence, regular-file status, on-disk size,
expected size).  When the skip case does not apply, the function issues
exactly one request whose `Range` header matches the decision: when the
destination exists and `expected_size` is known the decision is
`ResumeFrom k` with a range request starting at the current on-disk size `k`
(received bytes appended to the existing file on success); when
`expected_size` is unknown the decision is `FreshFetch` — no `Range` header
is sent and the file is opened for append. -/
theorem download_decision_cases (server : Server) (d : Dest) (x : Option Nat)
    (hskip : (d.dest_exists && d.is_file && (x.isNone || x == some d.bytes.length)) = false) :
    ((download_file server d x).2 =
        [rangeHeader (fetchDecision d.dest_exists d.is_file d.bytes.length x)]) ∧
    (d.dest_exists = true → x.isSome = true →
        fetchDecision d.dest_exists d.is_file d.bytes.length x =
          FetchDecision.ResumeFrom d.bytes.length) ∧
    (x = none → fetchDecision d.dest_exists d.is_file d.bytes.length x =
        FetchDecision.FreshFetch) ∧
    ((server (apiRange d x)).ok = true → (d.dest_exists = true → d.is_file = true) →
        (download_file server d x).1 =
          Except.ok ⟨true, true,
            (if d.dest_exists then d.bytes else []) ++ (server (apiRange d x)).body⟩) := by
  refine ⟨?_, ?_, ?_, ?_⟩
  · rw [download_file_requests server d x hskip]
    by_cases hc : (d.dest_exists && x.isSome) = true <;>
      simp [apiRange, fetchDecision, rangeHeader, hskip, hc]
  · intro he hx
    unfold fetchDecision
    rw [if_neg (by simp [hskip]), if_pos (by simp [he, hx])]
  · intro hx
    subst hx
    have hef : (d.dest_exists && d.is_file) = false := by
      simpa using hskip
    unfold fetchDecision
    rw [if_neg (by simp [hef]), if_neg (by simp)]
  · intro hok hnf
    unfold download_file
    rw [if_neg (by simp [hskip]), if_pos hok, if_neg ?_]
    intro hc
    simp only [Bool.and_eq_true, Bool.not_eq_true'] at hc
    rw [hnf hc.1] at hc
    cases hc.2

theorem download_decision_cases_witness :
    ((true && true && ((some 5 : Option Nat).isNone || some 5 == some ([1, 2] : List Nat).length)) = false) ∧
    (((download_file constServer ⟨true, true, [1, 2]⟩ (some 5)).2 =
        [rangeHeader (fetchDecision true true 2 (some 5))]) ∧
     (true = true → (some 5 : Option Nat).isSome = true →
        fetchDecision true true 2 (some 5) = FetchDecision.ResumeFrom 2) ∧
     ((some 5 : Option Nat) = none → fetchDecision true true 2 (some 5) =
        FetchDecision.FreshFetch) ∧
     ((constServer (apiRange ⟨true, true, [1, 2]⟩ (some 5))).ok = true →
        (true = true → true = true) →
        (download_file constServer ⟨true, true, [1, 2]⟩ (some 5)).1 =
          Except.ok ⟨true, true,
            (if true then [1, 2] else []) ++ (constServer (apiRange ⟨true, true, [1, 2]⟩ (some 5))).body⟩)) :=
  ⟨by decide, download_decision_cases constServer ⟨true, true, [1, 2]⟩ (some 5) (by decide)⟩

/-- C10 counterexample: on a destination that exists but is not a regular
file, with no expected size, the two downloader implementations diverge:
`download_file` from cli.py sends `Range: bytes=3-` (decision `ResumeFrom 3`)
while `_download_file` from api_client.py sends no `Range` header (decision
`FreshFetch`), so they do not make the same decision on every input state. -/
theorem downloader_divergence :
    (cli_download_file constServer ⟨true, false, [0, 0, 0]⟩ none).2 = [some 3] ∧
    (download_file constServer ⟨true, false, [0, 0, 0]⟩ none).2 = [none] ∧
    cliFetchDecision true false 3 none = FetchDecision.ResumeFrom 3 ∧
    fetchDecision true false 3 none = FetchDecision.FreshFetch ∧
    ([some 3] : List (Option Nat)) ≠ [none] :=
  ⟨rfl, rfl, rfl, rfl, by decide⟩

/-- C10 (amended): on every input state in which the destination is absent,
or is a regular file, or the expected size is supplied, the two downloader
implementations behave identically — same skip / resume / fresh decision,
same `Range` header, same requests and same outcome.  They diverge only when
the destination exists as a non-regular file and `expected_size` is absent. -/
theorem decision_agree (e f : Bool) (k : Nat) (x : Option Nat)
    (h : e = false ∨ f = true ∨ x ≠ none) :
    cliFetchDecision e f k x = fetchDecision e f k x := by
  cases e
  · simp [cliFetchDecision, fetchDecision]
  · cases f
    · rcases h with h | h | h
      · cases h
      · cases h
      · rcases x with _ | s
        · exact absurd rfl h
        · simp [cliFetchDecision, fetchDecision]
    · rcases x with _ | s
      · simp [cliFetchDecision, fetchDecision]
      · by_cases hs : s = k
        · simp [cliFetchDecision, fetchDecision, hs]
        · simp [cliFetchDecision, fetchDecision, hs]

theorem downloader_agreement (server : Server) (d : Dest) (x : Option Nat)
    (h : d.dest_exists = false ∨ d.is_file = true ∨ x ≠ none) :
    cli_download_file server d x = download_file server d x ∧
    cliFetchDecision d.dest_exists d.is_file d.bytes.length x =
      fetchDecision d.dest_exists d.is_file d.bytes.length x := by
  refine ⟨?_, decision_agree d.dest_exists d.is_file d.bytes.length x h⟩
  by_cases hskip :
      (d.dest_exists && d.is_file && (x.isNone || x == some d.bytes.length)) = true
  · rw [cli_download_file_skip server d x hskip, download_file_skip server d x hskip]
  · have hskip' := Bool.not_eq_true _ |>.mp hskip
    have hr : cliRange d = apiRange d x := by
      by_cases he : d.dest_exists = true
      · have hsome : x.isSome = true := by
          rcases h with h | h | h
          · rw [he] at h; cases h
          · simp only [he, h, Bool.true_and] at hskip'
            rcases x with _ | s
            · simp at hskip'
            · rfl
          · rcases x with _ | s
            · exact absurd rfl h
            · rfl
        simp [cliRange, apiRange, he, hsome]
      · have he' : d.dest_exists = false := by
          cases hde : d.dest_exists
          · rfl
          · exact absurd hde he
        simp [cliRange, apiRange, he']
    unfold cli_download_file download_file
    rw [hr]

theorem downloader_agreement_witness :
    ((false = false ∨ false = true ∨ (some 9 : Option Nat) ≠ none) ∧
      (cli_download_file constServer ⟨true, false, [1, 2]⟩ (some 9) =
          download_file constServer ⟨true, false, [1, 2]⟩ (some 9) ∧
        cliFetchDecision true false 2 (some 9) = fetchDecision true false 2 (some 9))) :=
  ⟨Or.inr (Or.inr (by decide)),
    downloader_agreement constServer ⟨true, false, [1, 2]⟩ (some 9)
      (Or.inr (Or.inr (by decide)))⟩

/-! ## Decimal digits and zero-padded names

`convert_zip_to_parquet` names the output file of batch `i` as
`bulk_{i:0{p}}.parquet` where `p = len(str(len(batched_gzip_files)))`.  All
names share the constant front `bulk_` and tail `.parquet`, so their relative
lexicographic order is the lexicographic order of the zero-padded decimal
index segments, which we model as big-endian digit lists. -/

/-- Fuelled little-endian decimal digits; with fuel at least `n` this is the
digit expansion of `n` (empty for 0). -/
def digitsRevFuel : Nat → Nat → List Nat
  | 0, _ => []
  | fuel + 1, n => if n = 0 then [] else n % 10 :: digitsRevFuel fuel (n / 10)

/-- Little-endian decimal digits of `n` (empty for 0). -/
def digitsRev (n : Nat) : List Nat := digitsRevFuel n n

/-- The big-endian digit list of Python's `str(n)`: `[0]` for 0, otherwise
the decimal digits most-significant first. -/
def pyDigits (n : Nat) : List Nat :=
  if n = 0 then [0] else (digitsRev n).reverse

/-- `len(str(n))` for a natural number `n`. -/
def numDigits (n : Nat) : Nat := (pyDigits n).length

/-- The digit segment of Python's `f"{n:0{w}}"`: `str(n)` left-padded with
zeros to width `w` (never truncated). -/
def padDigits (w n : Nat) : List Nat :=
  List.replicate (w - (pyDigits n).length) 0 ++ pyDigits n

/-- The value of a big-endian digit list. -/
def listVal : List Nat → Nat
  | [] => 0
  | d :: t => d * 10 ^ t.length + listVal t

/-- The value of a little-endian digit list. -/
def littleVal : List Nat → Nat
  | [] => 0
  | d :: t => d + 10 * littleVal t

theorem digitsRevFuel_zero (fuel : Nat) : digitsRevFuel fuel 0 = [] := by
  cases fuel <;> simp [digitsRevFuel]

theorem digitsRevFuel_congr :
    ∀ f1 f2 n : Nat, n ≤ f1 → n ≤ f2 → digitsRevFuel f1 n = digitsRevFuel f2 n := by
  intro f1
  induction f1 with
  | zero =>
    intro f2 n h1 _
    have : n = 0 := Nat.le_zero.mp h1
    subst this
    rw [digitsRevFuel_zero, digitsRevFuel_zero]
  | succ f ih =>
    intro f2 n h1 h2
    by_cases hn : n = 0
    · subst hn
      rw [digitsRevFuel_zero, digitsRevFuel_zero]
    · rcases f2 with _ | g
      · exact absurd (Nat.le_zero.mp h2) hn
      · have hdiv : n / 10 < n := Nat.div_lt_self (Nat.pos_of_ne_zero hn) (by omega)
        simp only [digitsRevFuel, hn, if_false]
        congr 1
        exact ih g (n / 10) (by omega) (by omega)

theorem digitsRev_def (n : Nat) :
    digitsRev n = if n = 0 then [] else n % 10 :: digitsRev (n / 10) := by
  rcases hn : n with _ | m
  · rfl
  · rw [if_neg (Nat.succ_ne_zero m)]
    unfold digitsRev
    simp only [digitsRevFuel, Nat.succ_ne_zero, if_false]
    have hdiv : (m + 1) / 10 < m + 1 := Nat.div_lt_self (Nat.succ_pos m) (by omega)
    rw [digitsRevFuel_congr m ((m + 1) / 10) ((m + 1) / 10) (by omega) (Nat.le_refl _)]

theorem digitsRev_digit_lt (n : Nat) : ∀ d ∈ digitsRev n, d < 10 := by
  induction n using Nat.strong_induction_on with
  | _ n ih =>
    intro d hd
    rw [digitsRev_def] at hd
    by_cases hn : n = 0
    · simp [hn] at hd
    · rw [if_neg hn] at hd
      rcases List.mem_cons.mp hd with h | h
      · subst h
        exact Nat.mod_lt n (by omega)
      · exact ih (n / 10) (Nat.div_lt_self (Nat.pos_of_ne_zero hn) (by omega)) d h

theorem littleVal_digitsRev (n : Nat) : littleVal (digitsRev n) = n := by
  induction n using Nat.strong_induction_on with
  | _ n ih =>
    rw [digitsRev_def]
    by_cases hn : n = 0
    · simp [hn, littleVal]
    · rw [if_neg hn]
      simp only [littleVal]
      rw [ih (n / 10) (Nat.div_lt_self (Nat.pos_of_ne_zero hn) (by omega))]
      exact Nat.mod_add_div n 10

theorem listVal_append_single (xs : List Nat) (d : Nat) :
    listVal (xs ++ [d]) = 10 * listVal xs + d := by
  induction xs with
  | nil => simp [listVal]
  | cons x t ih =>
    simp only [List.cons_append, List.append_eq, listVal, List.length_append,
      List.length_cons, List.length_nil, ih]
    ring

theorem listVal_reverse (l : List Nat) : listVal l.reverse = littleVal l := by
  induction l with
  | nil => rfl
  | cons d t ih =>
    rw [List.reverse_cons, listVal_append_single, ih, littleVal]
    ring

theorem digitsRev_length_le_iff (n : Nat) :
    ∀ w : Nat, (digitsRev n).length ≤ w ↔ n < 10 ^ w := by
  induction n using Nat.strong_induction_on with
  | _ n ih =>
    intro w
    rw [digitsRev_def]
    by_cases hn : n = 0
    · subst hn
      constructor
      · intro _
        exact pow_pos (by omega) w
      · intro _
        simp
    · rw [if_neg hn]
      rcases w with _ | v
      · simp only [List.length_cons, Nat.pow_zero]
        constructor
        · intro h; omega
        · intro h; omega
      · simp only [List.length_cons]
        rw [Nat.succ_le_succ_iff]
        rw [ih (n / 10) (Nat.div_lt_self (Nat.pos_of_ne_zero hn) (by omega)) v]
        rw [Nat.pow_succ]
        exact Nat.div_lt_iff_lt_mul (by omega)

theorem listVal_digitsRev_reverse (n : Nat) : listVal (digitsRev n).reverse = n := by
  rw [listVal_reverse, littleVal_digitsRev]

theorem pyDigits_length_pos (n : Nat) : 1 ≤ (pyDigits n).length := by
  unfold pyDigits
  by_cases hn : n = 0
  · simp [hn]
  · rw [if_neg hn]
    rw [List.length_reverse]
    rcases hl : digitsRev n with _ | ⟨d, t⟩
    · rw [digitsRev_def, if_neg hn] at hl
      cases hl
    · simp

theorem pyDigits_length_le_iff (n w : Nat) :
    (pyDigits n).length ≤ w ↔ (n < 10 ^ w ∧ 1 ≤ w) := by
  unfold pyDigits
  by_cases hn : n = 0
  · subst hn
    simp only [if_pos rfl, List.length_cons, List.length_nil]
    constructor
    · intro h
      exact ⟨pow_pos (by omega) w, h⟩
    · intro h
      exact h.2
  · rw [if_neg hn, List.length_reverse]
    rw [digitsRev_length_le_iff]
    constructor
    · intro h
      refine ⟨h, ?_⟩
      rcases w with _ | v
      · rw [Nat.pow_zero] at h
        omega
      · omega
    · intro h
      exact h.1

theorem listVal_pyDigits (n : Nat) : listVal (pyDigits n) = n := by
  unfold pyDigits
  by_cases hn : n = 0
  · simp [hn, listVal]
  · rw [if_neg hn]
    exact listVal_digitsRev_reverse n

theorem pyDigits_digit_lt (n : Nat) : ∀ d ∈ pyDigits n, d < 10 := by
  unfold pyDigits
  by_cases hn : n = 0
  · intro d hd
    rw [if_pos hn] at hd
    rcases List.mem_singleton.mp hd with h
    omega
  · intro d hd
    rw [if_neg hn] at hd
    exact digitsRev_digit_lt n d (List.mem_reverse.mp hd)

theorem listVal_replicate_zero_append (m : Nat) (l : List Nat) :
    listVal (List.replicate m 0 ++ l) = listVal l := by
  induction m with
  | zero => rfl
  | succ k ih =>
    rw [List.replicate_succ, List.cons_append]
    simp only [listVal]
    rw [ih]
    ring

theorem listVal_padDigits (w n : Nat) : listVal (padDigits w n) = n := by
  unfold padDigits
  rw [listVal_replicate_zero_append, listVal_pyDigits]

theorem padDigits_length (w n : Nat) (h : (pyDigits n).length ≤ w) :
    (padDigits w n).length = w := by
  unfold padDigits
  rw [List.length_append, List.length_replicate]
  omega

theorem padDigits_digit_lt (w n : Nat) : ∀ d ∈ padDigits w n, d < 10 := by
  intro d hd
  unfold padDigits at hd
  rcases List.mem_append.mp hd with h | h
  · rw [List.eq_of_mem_replicate h]
    omega
  · exact pyDigits_digit_lt n d h

theorem listVal_lt_pow (l : List Nat) (h : ∀ d ∈ l, d < 10) :
    listVal l < 10 ^ l.length := by
  induction l with
  | nil => simp [listVal]
  | cons d t ih =>
    simp only [listVal, List.length_cons]
    have hd : d < 10 := h d (List.mem_cons_self d t)
    have ht : listVal t < 10 ^ t.length := ih (fun x hx => h x (List.mem_cons_of_mem d hx))
    have h1 : d * 10 ^ t.length + listVal t < (d + 1) * 10 ^ t.length := by
      rw [Nat.add_mul, Nat.one_mul]
      omega
    have h2 : (d + 1) * 10 ^ t.length ≤ 10 * 10 ^ t.length :=
      Nat.mul_le_mul_right _ (by omega)
    rw [Nat.pow_succ]
    omega

theorem lex_of_listVal_lt :
    ∀ l1 l2 : List Nat, l1.length = l2.length → (∀ d ∈ l2, d < 10) →
      listVal l1 < listVal l2 → List.Lex (· < ·) l1 l2 := by
  intro l1
  induction l1 with
  | nil =>
    intro l2 hlen _ hv
    rcases l2 with _ | ⟨d2, t2⟩
    · cases Nat.lt_irrefl _ hv
    · cases hlen
  | cons d1 t1 ih =>
    intro l2 hlen hd hv
    rcases l2 with _ | ⟨d2, t2⟩
    · cases hlen
    · have hk : t1.length = t2.length := by
        simpa using hlen
      rcases Nat.lt_trichotomy d1 d2 with hlt | heq | hgt
      · exact List.Lex.rel hlt
      · subst heq
        apply List.Lex.cons
        apply ih t2 hk (fun x hx => hd x (List.mem_cons_of_mem d1 hx))
        simp only [listVal, hk] at hv
        omega
      · exfalso
        have ht2 : listVal t2 < 10 ^ t2.length :=
          listVal_lt_pow t2 (fun x hx => hd x (List.mem_cons_of_mem d2 hx))
        simp only [listVal, hk] at hv
        have h1 : d2 * 10 ^ t2.length + listVal t2 < (d2 + 1) * 10 ^ t2.length := by
          rw [Nat.add_mul, Nat.one_mul]
          omega
        have h2 : (d2 + 1) * 10 ^ t2.length ≤ d1 * 10 ^ t2.length :=
          Nat.mul_le_mul_right _ (by omega)
        omega

/-- Zero-padded decimal indices sort lexicographically in numeric order, as
long as the width accommodates the larger index. -/
theorem padDigits_lex (w i j : Nat) (hij : i < j) (hjw : j < 10 ^ w) (hw : 1 ≤ w) :
    List.Lex (· < ·) (padDigits w i) (padDigits w j) := by
  have hjl : (pyDigits j).length ≤ w := (pyDigits_length_le_iff j w).mpr ⟨hjw, hw⟩
  have hil : (pyDigits i).length ≤ w :=
    (pyDigits_length_le_iff i w).mpr ⟨Nat.lt_trans hij hjw, hw⟩
  apply lex_of_listVal_lt
  · rw [padDigits_length w i hil, padDigits_length w j hjl]
  · exact padDigits_digit_lt w j
  · rw [listVal_padDigits, listVal_padDigits]
    exact hij

theorem numDigits_self_bound (c : Nat) : c < 10 ^ numDigits c ∧ 1 ≤ numDigits c := by
  have h := (pyDigits_length_le_iff c (numDigits c)).mp (Nat.le_refl _)
  exact h

/-- Zero-padded decimal indices `i < j < c`, padded to width `len(str(c))`,
sort lexicographically in batch order. -/
theorem padDigits_numDigits_lex (c i j : Nat) (hij : i < j) (hj : j < c) :
    List.Lex (· < ·) (padDigits (numDigits c) i) (padDigits (numDigits c) j) := by
  obtain ⟨hc, hw⟩ := numDigits_self_bound c
  exact padDigits_lex (numDigits c) i j hij (Nat.lt_trans hj hc) hw

/-! ## Batch archive converter

`convert_zip_to_parquet` (zip_to_parquet.py) is embedded as a pure function.
The archive is its list of member names (an abstract type with decidable
equality; names are unique in a zip archive).  `memberMatch` models
`fnmatch.filter(zip_file.namelist(), "bulk-light-vehicle_*_*.json.gz")` —
the claims do not depend on the pattern's internals, only on which members
match.  `extractOk i` and `copyOk i` are environment oracles telling whether
`zip_file.extractall` and the DuckDB `COPY` for batch `i` succeed.  The
filesystem state carries the contents at `parquet_dir_path` and the scratch
area (`tempfile.TemporaryDirectory`). -/

/-- Fuelled batching: with fuel at least `l.length` and `b ≥ 1` this is
`list(itertools.batched(l, b))`. -/
def chunksFuel {α : Type} : Nat → Nat → List α → List (List α)
  | _, _, [] => []
  | 0, _, _ :: _ => []
  | fuel + 1, b, x :: xs => (x :: xs).take b :: chunksFuel fuel b ((x :: xs).drop b)

/-- `list(itertools.batched(l, b))`: the ordered partition of `l` into
consecutive groups of `b` elements, the last group possibly smaller
(meaningful for `b ≥ 1`; `itertools.batched` raises for smaller `b`). -/
def chunks {α : Type} (b : Nat) (l : List α) : List (List α) :=
  chunksFuel l.length b l

theorem chunksFuel_congr {α : Type} (b : Nat) (hb : 1 ≤ b) :
    ∀ f1 f2 (l : List α), l.length ≤ f1 → l.length ≤ f2 →
      chunksFuel f1 b l = chunksFuel f2 b l := by
  intro f1
  induction f1 with
  | zero =>
    intro f2 l h1 _
    have : l = [] := List.eq_nil_of_length_eq_zero (Nat.le_zero.mp h1)
    subst this
    cases f2 <;> rfl
  | succ f ih =>
    intro f2 l h1 h2
    rcases l with _ | ⟨x, xs⟩
    · cases f2 <;> rfl
    · rcases f2 with _ | g
      · simp at h2
      · simp only [chunksFuel]
        congr 1
        apply ih
        · simp only [List.length_drop, List.length_cons]
          simp only [List.length_cons] at h1
          omega
        · simp only [List.length_drop, List.length_cons]
          simp only [List.length_cons] at h2
          omega

theorem chunks_nil {α : Type} (b : Nat) : chunks b ([] : List α) = [] := rfl

theorem chunks_cons {α : Type} (b : Nat) (hb : 1 ≤ b) (x : α) (xs : List α) :
    chunks b (x :: xs) = (x :: xs).take b :: chunks b ((x :: xs).drop b) := by
  unfold chunks
  simp only [List.length_cons, chunksFuel]
  congr 1
  apply chunksFuel_congr b hb
  · simp only [List.length_drop, List.length_cons]
    omega
  · exact Nat.le_refl _

theorem chunks_join_aux {α : Type} (b : Nat) (hb : 1 ≤ b) :
    ∀ n : Nat, ∀ l : List α, l.length ≤ n → (chunks b l).flatten = l := by
  intro n
  induction n with
  | zero =>
    intro l h
    have : l = [] := List.eq_nil_of_length_eq_zero (Nat.le_zero.mp h)
    subst this
    rfl
  | succ n ih =>
    intro l h
    rcases l with _ | ⟨x, xs⟩
    · rfl
    · rw [chunks_cons b hb]
      have hlen : ((x :: xs).drop b).length ≤ n := by
        simp only [List.length_drop, List.length_cons]
        simp only [List.length_cons] at h
        omega
      rw [List.flatten_cons, ih _ hlen, List.take_append_drop]

/-- `itertools.batched` concatenates back to the original sequence. -/
theorem chunks_join {α : Type} (b : Nat) (hb : 1 ≤ b) (l : List α) :
    (chunks b l).flatten = l :=
  chunks_join_aux b hb l.length l (Nat.le_refl _)

theorem chunks_mem_aux {α : Type} (b : Nat) (hb : 1 ≤ b) :
    ∀ n : Nat, ∀ l : List α, l.length ≤ n →
      ∀ ch ∈ chunks b l, ch ≠ [] ∧ ch.length ≤ b := by
  intro n
  induction n with
  | zero =>
    intro l h ch hch
    have : l = [] := List.eq_nil_of_length_eq_zero (Nat.le_zero.mp h)
    subst this
    simp [chunks_nil] at hch
  | succ n ih =>
    intro l h ch hch
    rcases l with _ | ⟨x, xs⟩
    · simp [chunks_nil] at hch
    · rw [chunks_cons b hb] at hch
      rcases List.mem_cons.mp hch with hc | hc
      · subst hc
        constructor
        · rcases b with _ | b'
          · omega
          · simp [List.take_succ_cons]
        · rw [List.length_take]
          omega
      · apply ih ((x :: xs).drop b) ?_ ch hc
        simp only [List.length_drop, List.length_cons]
        simp only [List.length_cons] at h
        omega

/-- Each batch is nonempty and holds at most `b` members. -/
theorem chunks_mem {α : Type} (b : Nat) (hb : 1 ≤ b) (l : List α) :
    ∀ ch ∈ chunks b l, ch ≠ [] ∧ ch.length ≤ b :=
  chunks_mem_aux b hb l.length l (Nat.le_refl _)

theorem chunks_length_aux {α : Type} (b : Nat) (hb : 1 ≤ b) :
    ∀ n : Nat, ∀ l : List α, l.length ≤ n →
      (chunks b l).length = (l.length + b - 1) / b := by
  intro n
  induction n with
  | zero =>
    intro l h
    have : l = [] := List.eq_nil_of_length_eq_zero (Nat.le_zero.mp h)
    subst this
    rw [chunks_nil]
    simp only [List.length_nil, Nat.zero_add]
    rw [Nat.div_eq_of_lt (by omega)]
  | succ n ih =>
    intro l h
    rcases l with _ | ⟨x, xs⟩
    · rw [chunks_nil]
      simp only [List.length_nil, Nat.zero_add]
      rw [Nat.div_eq_of_lt (by omega)]
    · rw [chunks_cons b hb]
      have hlen : ((x :: xs).drop b).length ≤ n := by
        simp only [List.length_drop, List.length_cons]
        simp only [List.length_cons] at h
        omega
      rw [List.length_cons, ih _ hlen]
      simp only [List.length_drop, List.length_cons]
      by_cases hbN : xs.length + 1 ≤ b
      · have h1 : xs.length + 1 - b = 0 := by omega
        have hdiv : (xs.length + 1 + b - 1) / b = 1 :=
          Nat.div_eq_of_lt_le (by omega) (by omega)
        rw [h1, Nat.div_eq_of_lt (by omega), hdiv]
      · have h1 : xs.length + 1 - b + b - 1 = xs.length := by omega
        have h2 : xs.length + 1 + b - 1 = xs.length + b := by omega
        rw [h1, h2, Nat.add_div_right _ (by omega)]

/-- `itertools.batched` yields `ceil(N / b)` batches. -/
theorem chunks_length {α : Type} (b : Nat) (hb : 1 ≤ b) (l : List α) :
    (chunks b l).length = (l.length + b - 1) / b :=
  chunks_length_aux b hb l.length l (Nat.le_refl _)

/-- The state inside the temporary directory during the batch loop:
`extracted` are the `.json.gz` files currently present in the scratch area
(in extraction order), `outFiles` the files of the provisional output
directory `output.parquet.d`, each recorded as (digit segment of the
zero-padded index in `bulk_{i:0{p}}.parquet`, the list of extracted files
the DuckDB `COPY ... read_json(temp_dir/*.json.gz)` statement read to
produce it — the glob sees every extracted file, not just the batch). -/
structure ConvState (α : Type) where
  extracted : List α
  outFiles : List (List Nat × List α)
deriving DecidableEq, Repr

/-- Errors `convert_zip_to_parquet` can raise: the `ValueError` for an
archive with no matching member, the `ValueError` `itertools.batched` raises
for a batch size below 1, and extraction / DuckDB `COPY` failures while
processing batch `i`. -/
inductive ConvError where
  | noMatch : ConvError
  | badBatchSize : ConvError
  | extractFailed : Nat → ConvError
  | copyFailed : Nat → ConvError
deriving DecidableEq, Repr

/-- The batch loop of `convert_zip_to_parquet`: for each batch, in order —
`zip_file.extractall(path=temp_dir, members=batch_files)` (appends the batch
to the extracted files; raises when `extractOk i` is false), the DuckDB
`COPY` reading every `*.json.gz` under `temp_dir` into one new parquet file
named by the zero-padded batch index (raises when `copyOk i` is false), then
`(temp_dir / batch_file).unlink()` for each file of the batch (an erase per
file).  On failure, returns the error together with the state at the moment
of failure. -/
def runBatches {α : Type} [DecidableEq α] (extractOk copyOk : Nat → Bool) (pad : Nat) :
    List (List α) → Nat → ConvState α → Except (ConvError × ConvState α) (ConvState α)
  | [], _, st => Except.ok st
  | batch :: rest, i, st =>
    if extractOk i then
      if copyOk i then
        runBatches extractOk copyOk pad rest (i + 1)
          ⟨batch.foldl (fun acc f => acc.erase f) (st.extracted ++ batch),
            st.outFiles ++ [(padDigits pad i, st.extracted ++ batch)]⟩
      else Except.error (ConvError.copyFailed i, ⟨st.extracted ++ batch, st.outFiles⟩)
    else Except.error (ConvError.extractFailed i, st)

/-- The intended contents of the provisional output directory after
processing `batches` from index `i` starting from an empty extracted set:
one parquet file per batch, named by its zero-padded index and built from
exactly its batch. -/
def expectedFiles {α : Type} (pad : Nat) : Nat → List (List α) → List (List Nat × List α)
  | _, [] => []
  | i, batch :: rest => (padDigits pad i, batch) :: expectedFiles pad (i + 1) rest

/-- Scratch area contents (the `TemporaryDirectory`): extracted member files
plus the provisional output directory once `temp_parquet_dir.mkdir()` has
run. -/
structure Scratch (α : Type) where
  extracted : List α
  provisional : Option (List (List Nat × List α))
deriving DecidableEq, Repr

/-- The filesystem as the caller sees it: contents at `parquet_dir_path`
(`none` = absent) and the scratch area (`none` = no temporary directory on
disk). -/
structure FS (α : Type) where
  outputDir : Option (List (List Nat × List α))
  scratch : Option (Scratch α)
deriving DecidableEq, Repr

/-- The body of the `with` block of `convert_zip_to_parquet` — everything
executed while the `TemporaryDirectory` exists: filter the member names,
raise `ValueError` when nothing matches, `temp_parquet_dir.mkdir()`, batch
the names (raising for a batch size below 1), run the batch loop, and on
success `shutil.rmtree(parquet_dir_path, ignore_errors=True)` followed by
`temp_parquet_dir.rename(parquet_dir_path)` (the rename moves the
provisional directory out of the scratch area).  Returns the result, the
contents at the output path, and the scratch contents at the moment the
block exits. -/
def convertBody {α : Type} [DecidableEq α] (members : List α) (memberMatch : α → Bool)
    (extractOk copyOk : Nat → Bool) (batch_size : Nat)
    (out0 : Option (List (List Nat × List α))) :
    Except ConvError Unit × Option (List (List Nat × List α)) × Scratch α :=
  if (members.filter memberMatch).isEmpty then
    (Except.error ConvError.noMatch, out0, ⟨[], none⟩)
  else if batch_size = 0 then
    (Except.error ConvError.badBatchSize, out0, ⟨[], some []⟩)
  else
    match runBatches extractOk copyOk
        (numDigits (chunks batch_size (members.filter memberMatch)).length)
        (chunks batch_size (members.filter memberMatch)) 0 ⟨[], []⟩ with
    | Except.error (e, st) => (Except.error e, out0, ⟨st.extracted, some st.outFiles⟩)
    | Except.ok st => (Except.ok (), some st.outFiles, ⟨st.extracted, none⟩)

/-- Embedding of `convert_zip_to_parquet` from
`src/mot_data/dvsa_mot_history_api/zip_to_parquet.py`: run the `with` block,
then let the `TemporaryDirectory` context manager delete whatever remains of
the scratch area, recursively, on every exit path (normal or raising).  The
result pairs the outcome with the final filesystem state. -/
def convert_zip_to_parquet {α : Type} [DecidableEq α] (members : List α)
    (memberMatch : α → Bool) (extractOk copyOk : Nat → Bool) (batch_size : Nat)
    (fs0 : FS α) : Except ConvError Unit × FS α :=
  match convertBody members memberMatch extractOk copyOk batch_size fs0.outputDir with
  | (res, out1, _) => (res, ⟨out1, none⟩)

/-! ### Converter helper lemmas -/

theorem foldl_erase_self {α : Type} [DecidableEq α] :
    ∀ l : List α, l.foldl (fun acc f => acc.erase f) l = [] := by
  have haux : ∀ l : List α, ∀ x : α,
      List.foldl (fun acc f => acc.erase f) ((x :: l).erase x) l =
        List.foldl (fun acc f => acc.erase f) l l := by
    intro l x
    rw [List.erase_cons_head]
  intro l
  induction l with
  | nil => rfl
  | cons x xs ih =>
    simp only [List.foldl_cons]
    rw [haux xs x]
    exact ih

theorem expectedFiles_length {α : Type} (pad : Nat) :
    ∀ (i : Nat) (bts : List (List α)), (expectedFiles pad i bts).length = bts.length := by
  intro i bts
  induction bts generalizing i with
  | nil => rfl
  | cons bt rest ih =>
    simp only [expectedFiles, List.length_cons, ih]

theorem expectedFiles_map_snd {α : Type} (pad : Nat) :
    ∀ (i : Nat) (bts : List (List α)), (expectedFiles pad i bts).map Prod.snd = bts := by
  intro i bts
  induction bts generalizing i with
  | nil => rfl
  | cons bt rest ih =>
    simp only [expectedFiles, List.map_cons, ih]

theorem expectedFiles_map_fst {α : Type} (pad : Nat) :
    ∀ (i : Nat) (bts : List (List α)),
      (expectedFiles pad i bts).map Prod.fst =
        (List.range bts.length).map (fun j => padDigits pad (i + j)) := by
  intro i bts
  induction bts generalizing i with
  | nil => rfl
  | cons bt rest ih =>
    simp only [expectedFiles, List.map_cons, List.length_cons, List.range_succ_eq_map,
      List.map_map, ih]
    congr 1
    apply List.map_congr_left
    intro a _
    simp only [Function.comp_apply]
    congr 1
    omega

/-- Loop invariant of the batch loop: started with an empty extracted set,
every iteration begins with an empty extracted set (each batch's files are
unlinked before the next batch starts), so each `COPY` reads exactly its own
batch; a successful run ends with an empty extracted set and appends exactly
one output file per batch. -/
theorem runBatches_ok {α : Type} [DecidableEq α] (extractOk copyOk : Nat → Bool) (pad : Nat) :
    ∀ (batches : List (List α)) (i : Nat) (st st' : ConvState α),
      st.extracted = [] →
      runBatches extractOk copyOk pad batches i st = Except.ok st' →
      st'.extracted = [] ∧ st'.outFiles = st.outFiles ++ expectedFiles pad i batches := by
  intro batches
  induction batches with
  | nil =>
    intro i st st' hst h
    simp only [runBatches] at h
    cases h
    exact ⟨hst, by simp [expectedFiles]⟩
  | cons batch rest ih =>
    intro i st st' hst h
    simp only [runBatches] at h
    by_cases he : extractOk i = true
    · rw [if_pos he] at h
      by_cases hc : copyOk i = true
      · rw [if_pos hc] at h
        have hext : batch.foldl (fun acc f => acc.erase f) (st.extracted ++ batch) = [] := by
          rw [hst, List.nil_append]
          exact foldl_erase_self batch
        obtain ⟨h1, h2⟩ := ih (i + 1) _ st' hext h
        refine ⟨h1, ?_⟩
        rw [h2]
        simp only [hst, List.nil_append, expectedFiles]
        rw [List.append_assoc]
        rfl
      · rw [if_neg hc] at h
        cases h
    · rw [if_neg he] at h
      cases h

theorem convertBody_error_out {α : Type} [DecidableEq α] (members : List α)
    (memberMatch : α → Bool) (extractOk copyOk : Nat → Bool) (batch_size : Nat)
    (out0 : Option (List (List Nat × List α))) (e : ConvError)
    (out1 : Option (List (List Nat × List α))) (sc : Scratch α)
    (h : convertBody members memberMatch extractOk copyOk batch_size out0 =
        (Except.error e, out1, sc)) : out1 = out0 := by
  unfold convertBody at h
  by_cases h1 : (members.filter memberMatch).isEmpty = true
  · rw [if_pos h1] at h
    cases h
    rfl
  · rw [if_neg h1] at h
    by_cases h2 : batch_size = 0
    · rw [if_pos h2] at h
      cases h
      rfl
    · rw [if_neg h2] at h
      rcases hrun : runBatches extractOk copyOk
          (numDigits (chunks batch_size (members.filter memberMatch)).length)
          (chunks batch_size (members.filter memberMatch)) 0 ⟨[], []⟩ with est | st
      · rcases est with ⟨e', st⟩
        rw [hrun] at h
        cases h
        rfl
      · rw [hrun] at h
        simp at h

theorem convertBody_ok_out {α : Type} [DecidableEq α] (members : List α)
    (memberMatch : α → Bool) (extractOk copyOk : Nat → Bool) (batch_size : Nat)
    (out0 : Option (List (List Nat × List α)))
    (out1 : Option (List (List Nat × List α))) (sc : Scratch α)
    (h : convertBody members memberMatch extractOk copyOk batch_size out0 =
        (Except.ok (), out1, sc)) :
    out1 = some (expectedFiles
        (numDigits (chunks batch_size (members.filter memberMatch)).length) 0
        (chunks batch_size (members.filter memberMatch))) ∧
    sc.extracted = [] ∧ sc.provisional = none := by
  unfold convertBody at h
  by_cases h1 : (members.filter memberMatch).isEmpty = true
  · rw [if_pos h1] at h
    simp at h
  · rw [if_neg h1] at h
    by_cases h2 : batch_size = 0
    · rw [if_pos h2] at h
      simp at h
    · rw [if_neg h2] at h
      rcases hrun : runBatches extractOk copyOk
          (numDigits (chunks batch_size (members.filter memberMatch)).length)
          (chunks batch_size (members.filter memberMatch)) 0 ⟨[], []⟩ with est | st
      · rcases est with ⟨e', st⟩
        rw [hrun] at h
        simp at h
      · rw [hrun] at h
        cases h
        obtain ⟨hext, hout⟩ := runBatches_ok extractOk copyOk
          (numDigits (chunks batch_size (members.filter memberMatch)).length)
          (chunks batch_size (members.filter memberMatch)) 0 ⟨[], []⟩ st rfl hrun
        refine ⟨?_, hext, rfl⟩
        rw [hout]
        rfl

/-! ### Converter claims -/

/-- C1: for every run of the converter, the caller-visible output directory
is either unchanged (when any step fails — the empty-match validation, a
mid-batch extraction error or a COPY/write error) or fully populated with
exactly one columnar file per batch (when all batches succeed); it is never
left partially written, because all output files are written to a
provisional directory inside the scratch area that is renamed into place
only after the last batch succeeds. -/
theorem convert_output_all_or_nothing {α : Type} [DecidableEq α] (members : List α)
    (memberMatch : α → Bool) (extractOk copyOk : Nat → Bool) (batch_size : Nat) (fs0 : FS α) :
    (∀ e fs1, convert_zip_to_parquet members memberMatch extractOk copyOk batch_size fs0 =
        (Except.error e, fs1) → fs1.outputDir = fs0.outputDir) ∧
    (∀ fs1, convert_zip_to_parquet members memberMatch extractOk copyOk batch_size fs0 =
        (Except.ok (), fs1) →
      ∃ files, fs1.outputDir = some files ∧
        files.length = (chunks batch_size (members.filter memberMatch)).length) := by
  constructor
  · intro e fs1 h
    unfold convert_zip_to_parquet at h
    rcases hb : convertBody members memberMatch extractOk copyOk batch_size fs0.outputDir
      with ⟨res, out1, sc⟩
    rw [hb] at h
    cases h
    exact convertBody_error_out members memberMatch extractOk copyOk batch_size
      fs0.outputDir e out1 sc hb
  · intro fs1 h
    unfold convert_zip_to_parquet at h
    rcases hb : convertBody members memberMatch extractOk copyOk batch_size fs0.outputDir
      with ⟨res, out1, sc⟩
    rw [hb] at h
    cases h
    obtain ⟨hout, _, _⟩ := convertBody_ok_out members memberMatch extractOk copyOk batch_size
      fs0.outputDir out1 sc hb
    refine ⟨_, hout, ?_⟩
    rw [expectedFiles_length]

theorem convert_output_all_or_nothing_witness :
    ∃ files : List (List Nat × List Nat),
      (FS.mk (some [([0], [10, 20]), ([1], [30])]) none : FS Nat).outputDir = some files ∧
      files.length = (chunks 2 (([10, 20, 30] : List Nat).filter (fun _ => true))).length :=
  (convert_output_all_or_nothing [10, 20, 30] (fun _ => true) (fun _ => true) (fun _ => true) 2
      ⟨none, none⟩).2 ⟨some [([0], [10, 20]), ([1], [30])], none⟩ (by rfl)

/-- C4: for an archive in which zero member names match the selection
pattern, the converter raises a `ValueError` immediately, produces no
output, and leaves the filesystem as it was: the output path is untouched
and no scratch contents remain (the temporary directory the `with` statement
had created is removed again by the context manager as the exception
propagates). -/
theorem convert_empty_match_no_side_effects {α : Type} [DecidableEq α] (members : List α)
    (memberMatch : α → Bool) (extractOk copyOk : Nat → Bool) (batch_size : Nat) (fs0 : FS α)
    (hempty : members.filter memberMatch = []) :
    convert_zip_to_parquet members memberMatch extractOk copyOk batch_size fs0 =
      (Except.error ConvError.noMatch, ⟨fs0.outputDir, none⟩) := by
  unfold convert_zip_to_parquet convertBody
  rw [if_pos (by simp [hempty])]

theorem convert_empty_match_no_side_effects_witness :
    ([1, 2] : List Nat).filter (fun _ => false) = [] ∧
    convert_zip_to_parquet [1, 2] (fun _ => false) (fun _ => true) (fun _ => true) 10
        (⟨some [([0], [5])], none⟩ : FS Nat) =
      (Except.error ConvError.noMatch, ⟨some [([0], [5])], none⟩) :=
  ⟨rfl, convert_empty_match_no_side_effects [1, 2] (fun _ => false) (fun _ => true)
    (fun _ => true) 10 ⟨some [([0], [5])], none⟩ rfl⟩

/-- C5: for every archive with at least one matching member and every batch
size `b ≥ 1`, `itertools.batched` partitions the filtered member-name
sequence into an ordered, non-overlapping partition of nonempty groups of at
most `b` names, preserving archive order (the groups concatenate back to the
filtered sequence), with `ceil(N / b)` groups; and a successful conversion
produces exactly one output file per batch, each batch consumed exactly
once, left to right. -/
theorem convert_batch_partition {α : Type} [DecidableEq α] (members : List α)
    (memberMatch : α → Bool) (extractOk copyOk : Nat → Bool) (batch_size : Nat) (fs0 : FS α)
    (hb : 1 ≤ batch_size) (_hN : members.filter memberMatch ≠ []) :
    (chunks batch_size (members.filter memberMatch)).flatten = members.filter memberMatch ∧
    (∀ ch ∈ chunks batch_size (members.filter memberMatch), ch ≠ [] ∧ ch.length ≤ batch_size) ∧
    (chunks batch_size (members.filter memberMatch)).length =
      ((members.filter memberMatch).length + batch_size - 1) / batch_size ∧
    (∀ fs1, convert_zip_to_parquet members memberMatch extractOk copyOk batch_size fs0 =
        (Except.ok (), fs1) →
      ∃ files, fs1.outputDir = some files ∧
        files.map Prod.snd = chunks batch_size (members.filter memberMatch) ∧
        files.length = (chunks batch_size (members.filter memberMatch)).length) := by
  refine ⟨chunks_join batch_size hb _, chunks_mem batch_size hb _,
    chunks_length batch_size hb _, ?_⟩
  intro fs1 h
  unfold convert_zip_to_parquet at h
  rcases hbody : convertBody members memberMatch extractOk copyOk batch_size fs0.outputDir
    with ⟨res, out1, sc⟩
  rw [hbody] at h
  cases h
  obtain ⟨hout, _, _⟩ := convertBody_ok_out members memberMatch extractOk copyOk batch_size
    fs0.outputDir out1 sc hbody
  refine ⟨_, hout, ?_, ?_⟩
  · rw [expectedFiles_map_snd]
  · rw [expectedFiles_length]

theorem convert_batch_partition_witness :
    (1 ≤ 2 ∧ ([10, 20, 30] : List Nat).filter (fun _ => true) ≠ []) ∧
    ((chunks 2 (([10, 20, 30] : List Nat).filter (fun _ => true))).flatten =
        ([10, 20, 30] : List Nat).filter (fun _ => true) ∧
      (∀ ch ∈ chunks 2 (([10, 20, 30] : List Nat).filter (fun _ => true)),
        ch ≠ [] ∧ ch.length ≤ 2) ∧
      (chunks 2 (([10, 20, 30] : List Nat).filter (fun _ => true))).length =
        ((([10, 20, 30] : List Nat).filter (fun _ => true)).length + 2 - 1) / 2 ∧
      (∀ fs1, convert_zip_to_parquet [10, 20, 30] (fun _ => true) (fun _ => true)
          (fun _ => true) 2 (⟨none, none⟩ : FS Nat) = (Except.ok (), fs1) →
        ∃ files, fs1.outputDir = some files ∧
          files.map Prod.snd = chunks 2 (([10, 20, 30] : List Nat).filter (fun _ => true)) ∧
          files.length = (chunks 2 (([10, 20, 30] : List Nat).filter (fun _ => true))).length)) :=
  ⟨⟨by decide, by decide⟩,
    convert_batch_partition [10, 20, 30] (fun _ => true) (fun _ => true) (fun _ => true) 2
      ⟨none, none⟩ (by decide) (by decide)⟩

/-- C6 counterexample: the converter's padding width is
`len(str(batch_count))`, not the number of digits of `batch_count - 1`.  An
archive with 10 matching members at batch size 1 yields 10 batches; the
claim requires width `numDigits (10 - 1) = 1`, but the code produces
width-2 names `00` .. `09`. -/
theorem convert_padding_width_mismatch :
    (((convert_zip_to_parquet [0, 1, 2, 3, 4, 5, 6, 7, 8, 9] (fun _ => true) (fun _ => true)
          (fun _ => true) 1 (⟨none, none⟩ : FS Nat)).2.outputDir).map
        (fun files => files.map Prod.fst)) =
      some [[0, 0], [0, 1], [0, 2], [0, 3], [0, 4], [0, 5], [0, 6], [0, 7], [0, 8], [0, 9]] ∧
    (chunks 1 (([0, 1, 2, 3, 4, 5, 6, 7, 8, 9] : List Nat).filter (fun _ => true))).length = 10 ∧
    numDigits (10 - 1) = 1 ∧
    ([0, 0] : List Nat).length ≠ numDigits (10 - 1) := by
  refine ⟨by rfl, by rfl, by rfl, by decide⟩

/-- C6 (amended): for every successful conversion with batch count `c`, the
output files are named with zero-padded sequential indices `0 .. c - 1`
whose padding width equals `len(str(c))` — the number of decimal digits
needed to represent the batch count itself (which exceeds the digits of
`c - 1` exactly when `c` is a power of ten) — and since every index fits in
that width, the filenames still sort lexicographically in batch order. -/
theorem convert_padding_width_amended {α : Type} [DecidableEq α] (members : List α)
    (memberMatch : α → Bool) (extractOk copyOk : Nat → Bool) (batch_size : Nat) (fs0 : FS α)
    (fs1 : FS α)
    (hok : convert_zip_to_parquet members memberMatch extractOk copyOk batch_size fs0 =
        (Except.ok (), fs1)) :
    ∃ files, fs1.outputDir = some files ∧
      files.map Prod.fst =
        (List.range (chunks batch_size (members.filter memberMatch)).length).map
          (padDigits (numDigits (chunks batch_size (members.filter memberMatch)).length)) ∧
      (∀ i j, i < j → j < (chunks batch_size (members.filter memberMatch)).length →
        List.Lex (· < ·)
          (padDigits (numDigits (chunks batch_size (members.filter memberMatch)).length) i)
          (padDigits (numDigits (chunks batch_size (members.filter memberMatch)).length) j)) := by
  unfold convert_zip_to_parquet at hok
  rcases hbody : convertBody members memberMatch extractOk copyOk batch_size fs0.outputDir
    with ⟨res, out1, sc⟩
  rw [hbody] at hok
  cases hok
  obtain ⟨hout, _, _⟩ := convertBody_ok_out members memberMatch extractOk copyOk batch_size
    fs0.outputDir out1 sc hbody
  refine ⟨_, hout, ?_, ?_⟩
  · rw [expectedFiles_map_fst]
    apply List.map_congr_left
    intro a _
    rw [Nat.zero_add]
  · intro i j hij hj
    exact padDigits_numDigits_lex _ i j hij hj

theorem convert_padding_width_amended_witness :
    ∃ files : List (List Nat × List Nat),
      (FS.mk (some [([0], [5]), ([1], [6]), ([2], [7])]) none : FS Nat).outputDir = some files ∧
      files.map Prod.fst =
        (List.range (chunks 1 (([5, 6, 7] : List Nat).filter (fun _ => true))).length).map
          (padDigits (numDigits (chunks 1 (([5, 6, 7] : List Nat).filter (fun _ => true))).length)) ∧
      (∀ i j, i < j → j < (chunks 1 (([5, 6, 7] : List Nat).filter (fun _ => true))).length →
        List.Lex (· < ·)
          (padDigits (numDigits (chunks 1 (([5, 6, 7] : List Nat).filter (fun _ => true))).length) i)
          (padDigits (numDigits (chunks 1 (([5, 6, 7] : List Nat).filter (fun _ => true))).length) j)) :=
  convert_padding_width_amended [5, 6, 7] (fun _ => true) (fun _ => true) (fun _ => true) 1
    ⟨none, none⟩ ⟨some [([0], [5]), ([1], [6]), ([2], [7])], none⟩ (by rfl)

/-- C7: the scratch area (`TemporaryDirectory`) is created before batch 0
and removed recursively on every exit path — normal completion, the
empty-match validation failure, the bad-batch-size failure, and any
mid-batch extraction or COPY error (the oracles range over every failure
pattern) — with the sole exception that on success the committed output
directory is first renamed out of it: when the with-block exits the
provisional directory is no longer in the scratch area and its contents are
at the output path.  No scratch contents remain after the call returns or
raises. -/
theorem convert_scratch_released {α : Type} [DecidableEq α] (members : List α)
    (memberMatch : α → Bool) (extractOk copyOk : Nat → Bool) (batch_size : Nat) (fs0 : FS α) :
    ((convert_zip_to_parquet members memberMatch extractOk copyOk batch_size fs0).2).scratch =
      none ∧
    (∀ fs1, convert_zip_to_parquet members memberMatch extractOk copyOk batch_size fs0 =
        (Except.ok (), fs1) →
      (convertBody members memberMatch extractOk copyOk batch_size
          fs0.outputDir).2.2.provisional = none ∧
      ∃ files, fs1.outputDir = some files) := by
  constructor
  · unfold convert_zip_to_parquet
    rcases hbody : convertBody members memberMatch extractOk copyOk batch_size fs0.outputDir
      with ⟨res, out1, sc⟩
    rfl
  · intro fs1 h
    unfold convert_zip_to_parquet at h
    rcases hbody : convertBody members memberMatch extractOk copyOk batch_size fs0.outputDir
      with ⟨res, out1, sc⟩
    rw [hbody] at h
    cases h
    obtain ⟨hout, hext, hprov⟩ := convertBody_ok_out members memberMatch extractOk copyOk
      batch_size fs0.outputDir out1 sc hbody
    exact ⟨hprov, ⟨_, hout⟩⟩

theorem convert_scratch_released_witness :
    ((convert_zip_to_parquet [10, 20, 30] (fun _ => true) (fun _ => true) (fun _ => true) 2
        (⟨none, none⟩ : FS Nat)).2).scratch = none ∧
    ((convertBody [10, 20, 30] (fun _ => true) (fun _ => true) (fun _ => true) 2
        (none : Option (List (List Nat × List Nat)))).2.2.provisional = none ∧
      ∃ files, (FS.mk (some [([0], [10, 20]), ([1], [30])]) none : FS Nat).outputDir =
        some files) :=
  ⟨(convert_scratch_released [10, 20, 30] (fun _ => true) (fun _ => true) (fun _ => true) 2
      ⟨none, none⟩).1,
    (convert_scratch_released [10, 20, 30] (fun _ => true) (fun _ => true) (fun _ => true) 2
      ⟨none, none⟩).2 ⟨some [([0], [10, 20]), ([1], [30])], none⟩ (by rfl)⟩

/-- C8: started from an empty extracted set, every batch iteration of the
loop begins with no extracted `.json.gz` files in the scratch area — batch
`i`'s extracted files are unlinked immediately after batch `i`'s columnar
file is written and before batch `i + 1` begins — so the DuckDB COPY (whose
glob reads every extracted file present) reads exactly its own batch for
every batch index, a successful run ends with no extracted files, and peak
extracted-file disk usage never exceeds one batch's worth of files. -/
theorem convert_batch_scratch_invariant {α : Type} [DecidableEq α]
    (extractOk copyOk : Nat → Bool) (pad : Nat) (batches : List (List α)) (i : Nat)
    (st st' : ConvState α) (hst : st.extracted = [])
    (hrun : runBatches extractOk copyOk pad batches i st = Except.ok st') :
    st'.extracted = [] ∧
    st'.outFiles = st.outFiles ++ expectedFiles pad i batches ∧
    (st'.outFiles.drop st.outFiles.length).map Prod.snd = batches := by
  obtain ⟨h1, h2⟩ := runBatches_ok extractOk copyOk pad batches i st st' hst hrun
  refine ⟨h1, h2, ?_⟩
  rw [h2, List.drop_left, expectedFiles_map_snd]

theorem convert_batch_scratch_invariant_witness :
    (ConvState.mk ([] : List Nat) [([0], [4]), ([1], [5])]).extracted = [] ∧
    (ConvState.mk ([] : List Nat) [([0], [4]), ([1], [5])]).outFiles =
      (ConvState.mk ([] : List Nat) []).outFiles ++ expectedFiles 1 0 [[4], [5]] ∧
    ((ConvState.mk ([] : List Nat) [([0], [4]), ([1], [5])]).outFiles.drop
        (ConvState.mk ([] : List Nat) []).outFiles.length).map Prod.snd = [[4], [5]] :=
  convert_batch_scratch_invariant (fun _ => true) (fun _ => true) 1 [[4], [5]] 0
    ⟨[], []⟩ ⟨[], [([0], [4]), ([1], [5])]⟩ rfl (by rfl)
